import Mathlib

/-!
Verification of the recursive least squares (RLS) filter in `src/lib.rs`
(`struct Rls<F>`, `Rls::new`, `Rls::with_weight`, `Rls::update`).

The source's floating-point element type `F` (`f32`/`f64`) is embedded as the
exact rationals `ℚ`; vectors of length `n` are `Fin n → ℚ` and the `n × n`
inverse-correlation matrix is `Fin n → Fin n → ℚ`. Division follows the
field convention `x / 0 = 0` where the floats would produce `inf`/`NaN`.
-/

namespace Recless

/-- Dot product of two length-`n` vectors, as computed by `ArrayBase::dot`. -/
def dot {n : ℕ} (u v : Fin n → ℚ) : ℚ := ∑ i, u i * v i

/-- Matrix-vector product, as computed by `ndarray::linalg::general_mat_vec_mul`
with `alpha = 1` and `beta = 0` (the result overwrites the output buffer). -/
def mulVec {n : ℕ} (M : Fin n → Fin n → ℚ) (v : Fin n → ℚ) : Fin n → ℚ :=
  fun i => dot (fun j => M i j) v

/-- Matrix transpose, as produced by `ArrayBase::t`. -/
def transpose {n : ℕ} (M : Fin n → Fin n → ℚ) : Fin n → Fin n → ℚ :=
  fun i j => M j i

/-- The state of `struct Rls<F>` in `src/lib.rs`. The two scratch buffers
`temp_mat` and `temp_vec` are fully overwritten on every `update` call and are
never observable through the public accessors, so they are not part of the
state here; both constructors zero them identically. -/
structure Rls (n : ℕ) where
  inv_forgetting_factor : ℚ
  gain : Fin n → ℚ
  inverse_correlation : Fin n → Fin n → ℚ
  weight : Fin n → ℚ
  prior_error : ℚ

/-- `Rls::with_weight(initialization_factor, forgetting_factor, weight)`:
the inverse correlation matrix is `Array2::eye(n)` scaled in place by
`1/initialization_factor`. -/
def Rls.with_weight {n : ℕ} (initialization_factor forgetting_factor : ℚ)
    (weight : Fin n → ℚ) : Rls n where
  inv_forgetting_factor := 1 / forgetting_factor
  gain := fun _ => 0
  inverse_correlation := fun i j => (if i = j then 1 else 0) * (1 / initialization_factor)
  weight := weight
  prior_error := 0

/-- `Rls::new(initialization_factor, forgetting_factor, n)`: delegates to
`with_weight` with `Array1::zeros(n)` as the weight vector. -/
def Rls.new (initialization_factor forgetting_factor : ℚ) (n : ℕ) : Rls n :=
  Rls.with_weight initialization_factor forgetting_factor (fun _ => 0)

/-- `Rls::update(&mut self, input, target)` from `src/lib.rs`, transcribed
step by step: the in-place mutations become let-bindings read in program
order. The rank-1 `?ger` call fills the zeroed scratch matrix with
`gain ⊗ temp_vec`, where `temp_vec = inverse_correlationᵗ · input`. -/
def Rls.update {n : ℕ} (s : Rls n) (input : Fin n → ℚ) (target : ℚ) : Rls n :=
  let gain₀ := mulVec s.inverse_correlation input
  let c := s.inv_forgetting_factor + dot input gain₀
  let gain := fun i => gain₀ i / c
  let prior_error := target - dot s.weight input
  let weight := fun i => s.weight i + prior_error * gain i
  let temp_vec := mulVec (transpose s.inverse_correlation) input
  let temp_mat := fun i j => gain i * temp_vec j
  { inv_forgetting_factor := s.inv_forgetting_factor
    gain := gain
    inverse_correlation := fun i j => (s.inverse_correlation i j - temp_mat i j) * s.inv_forgetting_factor
    weight := weight
    prior_error := prior_error }

/-- Unfolding lemma for the `gain` field after `update`. -/
lemma update_gain_def {n : ℕ} (s : Rls n) (input : Fin n → ℚ) (target : ℚ) :
    (s.update input target).gain = fun i =>
      mulVec s.inverse_correlation input i /
        (s.inv_forgetting_factor + dot input (mulVec s.inverse_correlation input)) := rfl

/-- Unfolding lemma for the `prior_error` field after `update`. -/
lemma update_prior_def {n : ℕ} (s : Rls n) (input : Fin n → ℚ) (target : ℚ) :
    (s.update input target).prior_error = target - dot s.weight input := rfl

/-- Unfolding lemma for the `weight` field after `update`. -/
lemma update_weight_def {n : ℕ} (s : Rls n) (input : Fin n → ℚ) (target : ℚ) :
    (s.update input target).weight = fun i =>
      s.weight i + (target - dot s.weight input) *
        (mulVec s.inverse_correlation input i /
          (s.inv_forgetting_factor + dot input (mulVec s.inverse_correlation input))) := rfl

/-- Unfolding lemma for the `inverse_correlation` field after `update`. -/
lemma update_icm_def {n : ℕ} (s : Rls n) (input : Fin n → ℚ) (target : ℚ) :
    (s.update input target).inverse_correlation = fun i j =>
      (s.inverse_correlation i j -
        (mulVec s.inverse_correlation input i /
          (s.inv_forgetting_factor + dot input (mulVec s.inverse_correlation input))) *
        mulVec (transpose s.inverse_correlation) input j) * s.inv_forgetting_factor := rfl

/-- A matrix-vector product with the zero vector is zero. -/
lemma mulVec_zero_input {n : ℕ} (M : Fin n → Fin n → ℚ) :
    mulVec M (fun _ => 0) = fun _ => 0 := by
  funext i
  simp [mulVec, dot]

/-- A dot product with the zero vector on the right is zero. -/
lemma dot_zero_right {n : ℕ} (u : Fin n → ℚ) : dot u (fun _ => 0) = 0 := by
  simp [dot]

/-- `update` with the all-zero input vector leaves the weight unchanged. -/
lemma update_zero_input_weight {n : ℕ} (s : Rls n) (target : ℚ) :
    (s.update (fun _ => 0) target).weight = s.weight := by
  funext i
  rw [update_weight_def]
  simp [mulVec_zero_input]

/-- `update` with the all-zero input vector sets `prior_error` to `target`. -/
lemma update_zero_input_prior {n : ℕ} (s : Rls n) (target : ℚ) :
    (s.update (fun _ => 0) target).prior_error = target := by
  rw [update_prior_def, dot_zero_right, sub_zero]

/-- `update` with the all-zero input vector scales every entry of the
inverse correlation matrix by the inverse forgetting factor. -/
lemma update_zero_input_icm {n : ℕ} (s : Rls n) (target : ℚ) (i j : Fin n) :
    (s.update (fun _ => 0) target).inverse_correlation i j
      = s.inv_forgetting_factor * s.inverse_correlation i j := by
  rw [update_icm_def]
  simp only [mulVec_zero_input]
  ring

/-- Claim C1: one `update` call rewrites the state exactly per the canonical
RLS recurrence: `gain = (P·input)/c` with `c = λ⁻¹ + input·(P·input)`;
`prior_error = target − w·input` from the pre-update weight; `weight = w +
prior_error·gain`; `inverse_correlation = λ⁻¹·(P − gain ⊗ (Pᵗ·input))` from
the pre-update `P`; and `λ⁻¹` itself is untouched. -/
theorem update_matches_canonical_recurrence {n : ℕ} (s : Rls n)
    (input : Fin n → ℚ) (target : ℚ) :
    (s.update input target).gain = (fun i =>
      mulVec s.inverse_correlation input i /
        (s.inv_forgetting_factor + dot input (mulVec s.inverse_correlation input))) ∧
    (s.update input target).prior_error = target - dot s.weight input ∧
    (s.update input target).weight = (fun i =>
      s.weight i + (s.update input target).prior_error * (s.update input target).gain i) ∧
    (s.update input target).inverse_correlation = (fun i j =>
      s.inv_forgetting_factor * (s.inverse_correlation i j -
        (s.update input target).gain i * mulVec (transpose s.inverse_correlation) input j)) ∧
    (s.update input target).inv_forgetting_factor = s.inv_forgetting_factor := by
  refine ⟨rfl, rfl, rfl, ?_, rfl⟩
  funext i j
  rw [update_icm_def, update_gain_def]
  ring

/-- Claim C2: for `δ ≠ 0`, `λ ≠ 0` and length `n ≥ 1`, both `new` and
`with_weight` produce `inv_forgetting_factor = 1/λ`, a zero gain vector,
`prior_error = 0`, and inverse correlation `(1/δ)·I` (a scaled identity, not
a constant-filled matrix). -/
theorem constructors_initial_state {n : ℕ} (δ lam : ℚ) (w : Fin n → ℚ)
    (hδ : δ ≠ 0) (hlam : lam ≠ 0) (hn : 1 ≤ n) :
    ((Rls.new δ lam n).inv_forgetting_factor = 1 / lam ∧
     (Rls.new δ lam n).gain = (fun _ => 0) ∧
     (Rls.new δ lam n).prior_error = 0 ∧
     (Rls.new δ lam n).inverse_correlation = (fun i j => if i = j then 1 / δ else 0)) ∧
    ((Rls.with_weight δ lam w).inv_forgetting_factor = 1 / lam ∧
     (Rls.with_weight δ lam w).gain = (fun _ => 0) ∧
     (Rls.with_weight δ lam w).prior_error = 0 ∧
     (Rls.with_weight δ lam w).inverse_correlation = (fun i j => if i = j then 1 / δ else 0)) := by
  have hicm : ∀ (m : ℕ) (v : Fin m → ℚ),
      (Rls.with_weight δ lam v).inverse_correlation = fun i j => if i = j then 1 / δ else 0 := by
    intro m v
    funext i j
    by_cases h : i = j <;> simp [Rls.with_weight, h]
  exact ⟨⟨rfl, rfl, rfl, hicm n _⟩, ⟨rfl, rfl, rfl, hicm n w⟩⟩

/-- Witness for C2 at `δ = 2`, `λ = 4`, `n = 1`. -/
theorem constructors_initial_state_witness :
    (Rls.new (2 : ℚ) 4 1).inverse_correlation = fun i j => if i = j then 1 / 2 else 0 :=
  (constructors_initial_state 2 4 (fun _ : Fin 1 => 3)
    (by norm_num) (by norm_num) (by norm_num)).1.2.2.2

/-- Claim C5: an `update` with the all-zero input leaves `weight` unchanged
and sets `prior_error` to `target`, for every state and every target. -/
theorem zero_input_weight_prior {n : ℕ} (s : Rls n) (target : ℚ) :
    (s.update (fun _ => 0) target).weight = s.weight ∧
    (s.update (fun _ => 0) target).prior_error = target :=
  ⟨update_zero_input_weight s target, update_zero_input_prior s target⟩

/-- Claim C8: `new δ λ n` returns exactly the state `with_weight δ λ 0`
with the all-zero weight vector of length `n`. -/
theorem new_refines_with_weight (δ lam : ℚ) (n : ℕ)
    (hδ : δ ≠ 0) (hlam : lam ≠ 0) (hn : 1 ≤ n) :
    Rls.new δ lam n = Rls.with_weight δ lam (fun _ => 0) := rfl

/-- Witness for C8 at `δ = 1`, `λ = 1`, `n = 1`. -/
theorem new_refines_with_weight_witness :
    Rls.new (1 : ℚ) 1 1 = Rls.with_weight 1 1 (fun _ => 0) :=
  new_refines_with_weight 1 1 1 (by norm_num) (by norm_num) (by norm_num)

/-- Counterexample to claim C3: in the scenario `n = 1`, `δ = 1`, `λ = 1`,
initial weight `[0]`, one `update` with input `[2]` and target `4` leaves
the weight entry at `8/5 = 1.6`, not at `2`: the gain is `2/(1 + 4) = 2/5`
and the weight correction is `4 · 2/5`. -/
theorem first_update_weight_cex :
    ((Rls.new 1 1 1).update (fun _ => 2) 4).weight 0 ≠ 2 := by
  rw [update_weight_def]
  norm_num [Rls.new, Rls.with_weight, dot, mulVec, Fin.sum_univ_one]

/-- Claim C3 as amended: in that scenario the post-update weight is exactly
`[8/5]` (not `[2]`), and `prior_error = 4` as claimed. -/
theorem first_update_scenario :
    ((Rls.new 1 1 1).update (fun _ => 2) 4).weight = (fun _ => 8 / 5) ∧
    ((Rls.new 1 1 1).update (fun _ => 2) 4).prior_error = 4 := by
  constructor
  · funext i
    rw [update_weight_def, Fin.eq_zero i]
    norm_num [Rls.new, Rls.with_weight, dot, mulVec, Fin.sum_univ_one]
  · rw [update_prior_def]
    norm_num [Rls.new, Rls.with_weight, dot, Fin.sum_univ_one]

/-- Claim C6: if the inverse correlation matrix is symmetric, it is again
symmetric after one `update`, for every input and target (exact
arithmetic). -/
theorem update_preserves_symmetry {n : ℕ} (s : Rls n) (input : Fin n → ℚ)
    (target : ℚ)
    (hsym : ∀ i j, s.inverse_correlation i j = s.inverse_correlation j i) :
    ∀ i j, (s.update input target).inverse_correlation i j
      = (s.update input target).inverse_correlation j i := by
  have ht : ∀ k, mulVec (transpose s.inverse_correlation) input k
      = mulVec s.inverse_correlation input k := by
    intro k
    unfold mulVec transpose dot
    refine Finset.sum_congr rfl fun m _ => ?_
    show s.inverse_correlation m k * input m = s.inverse_correlation k m * input m
    rw [hsym]
  intro i j
  simp only [update_icm_def]
  rw [ht i, ht j, hsym i j]
  ring

/-- Witness for C6 on a concrete symmetric 2×2 state. -/
theorem update_preserves_symmetry_witness :
    ((⟨1, fun _ => 0, fun _ _ => 1, fun _ => 0, 0⟩ : Rls 2).update
        (fun _ => 1) 3).inverse_correlation 0 1
      = ((⟨1, fun _ => 0, fun _ _ => 1, fun _ => 0, 0⟩ : Rls 2).update
        (fun _ => 1) 3).inverse_correlation 1 0 :=
  update_preserves_symmetry _ _ 3 (fun _ _ => rfl) 0 1

/-- Claim C10: a zero-input `update` multiplies every entry of
`inverse_correlation` by `λ⁻¹` while leaving `weight` untouched; the matrix
is unchanged exactly when `λ⁻¹ = 1`, and for `λ⁻¹ > 1` every nonzero entry
strictly grows in absolute value. -/
theorem zero_input_scales_icm {n : ℕ} (s : Rls n) (target : ℚ) :
    (∀ i j, (s.update (fun _ => 0) target).inverse_correlation i j
        = s.inv_forgetting_factor * s.inverse_correlation i j) ∧
    (s.update (fun _ => 0) target).weight = s.weight ∧
    (s.inv_forgetting_factor = 1 →
      (s.update (fun _ => 0) target).inverse_correlation = s.inverse_correlation) ∧
    (1 < s.inv_forgetting_factor → ∀ i j, s.inverse_correlation i j ≠ 0 →
      |s.inverse_correlation i j|
        < |(s.update (fun _ => 0) target).inverse_correlation i j|) := by
  refine ⟨update_zero_input_icm s target, update_zero_input_weight s target, ?_, ?_⟩
  · intro h
    funext i j
    rw [update_zero_input_icm, h, one_mul]
  · intro h i j hij
    rw [update_zero_input_icm]
    rw [abs_mul, abs_of_pos (by linarith : (0:ℚ) < s.inv_forgetting_factor)]
    have hp : 0 < |s.inverse_correlation i j| := abs_pos.mpr hij
    nlinarith

/-- Dot products are symmetric. -/
lemma dot_comm {n : ℕ} (u v : Fin n → ℚ) : dot u v = dot v u :=
  Finset.sum_congr rfl fun i _ => mul_comm _ _

/-- Bilinearity step used to expand the post-update prediction. -/
lemma dot_add_mul_div {n : ℕ} (w g u : Fin n → ℚ) (a c : ℚ) :
    dot (fun i => w i + a * (g i / c)) u = dot w u + a * (dot g u / c) := by
  unfold dot
  simp only [add_mul]
  rw [Finset.sum_add_distrib]
  congr 1
  have h : ∀ i : Fin n, a * (g i / c) * u i = a / c * (g i * u i) := fun i => by ring
  rw [Finset.sum_congr rfl fun i _ => h i, ← Finset.mul_sum]
  ring

/-- With `λ⁻¹ = 1`, one `update` divides the prediction error by
`1 + input·(P·input)` exactly. -/
lemma update_pred_error {n : ℕ} (s : Rls n) (input : Fin n → ℚ) (target : ℚ)
    (hone : s.inv_forgetting_factor = 1)
    (hc : (1 : ℚ) + dot input (mulVec s.inverse_correlation input) ≠ 0) :
    target - dot (s.update input target).weight input
      = (target - dot s.weight input) /
          (1 + dot input (mulVec s.inverse_correlation input)) := by
  have h1 : dot (s.update input target).weight input
      = dot s.weight input + (target - dot s.weight input) *
          (dot (mulVec s.inverse_correlation input) input /
            (1 + dot input (mulVec s.inverse_correlation input))) := by
    rw [update_weight_def, hone]
    exact dot_add_mul_div s.weight (mulVec s.inverse_correlation input) input _ _
  rw [h1, dot_comm (mulVec s.inverse_correlation input) input]
  set q := dot input (mulVec s.inverse_correlation input) with hq
  field_simp
  ring

/-- Claim C4 as amended: with `λ = 1` (so `λ⁻¹ = 1`), a symmetric
positive-definite inverse correlation matrix and a non-zero input, one
`update` moves the prediction strictly closer to the target, provided the
pre-update prediction differs from the target (when they coincide both
errors are zero and nothing moves). -/
theorem error_reduction {n : ℕ} (s : Rls n) (input : Fin n → ℚ) (target : ℚ)
    (hone : s.inv_forgetting_factor = 1)
    (hsym : ∀ i j, s.inverse_correlation i j = s.inverse_correlation j i)
    (hpd : ∀ v : Fin n → ℚ, v ≠ 0 → 0 < dot v (mulVec s.inverse_correlation v))
    (hin : input ≠ 0)
    (hne : dot s.weight input ≠ target) :
    |target - dot (s.update input target).weight input|
      < |target - dot s.weight input| := by
  have hq : 0 < dot input (mulVec s.inverse_correlation input) := hpd input hin
  have hc : (0 : ℚ) < 1 + dot input (mulVec s.inverse_correlation input) := by
    linarith
  rw [update_pred_error s input target hone (ne_of_gt hc), abs_div, abs_of_pos hc]
  have he : target - dot s.weight input ≠ 0 := sub_ne_zero.mpr (Ne.symm hne)
  exact div_lt_self (abs_pos.mpr he) (by linarith)

/-- The 1×1 all-ones matrix is positive definite over `ℚ`. -/
lemma unit_matrix_posdef :
    ∀ v : Fin 1 → ℚ, v ≠ 0 → 0 < dot v (mulVec (fun _ _ => (1 : ℚ)) v) := by
  intro v hv
  have h0 : v 0 ≠ 0 := by
    intro h0
    apply hv
    funext i
    rw [Fin.eq_zero i, h0]
    rfl
  have hval : dot v (mulVec (fun _ _ => (1 : ℚ)) v) = v 0 * v 0 := by
    simp [dot, mulVec, Fin.sum_univ_one]
  rw [hval]
  exact mul_self_pos.mpr h0

/-- The constant-one vector of length 1 is not the zero vector. -/
lemma one_fun_ne_zero : (fun _ : Fin 1 => (1 : ℚ)) ≠ 0 := by
  intro hz
  have h := congrFun hz 0
  norm_num at h

/-- Counterexample to claim C4 as stated: with `λ⁻¹ = 1`, `P = [[1]]`
(symmetric, positive definite), weight `[0]`, non-zero input `[1]` and
target `0`, the pre-update prediction already equals the target, so the
post-update prediction is not strictly closer — both errors are `0`. -/
theorem error_reduction_cex :
    ¬ (∀ (n : ℕ) (s : Rls n) (input : Fin n → ℚ) (target : ℚ),
        s.inv_forgetting_factor = 1 →
        (∀ i j, s.inverse_correlation i j = s.inverse_correlation j i) →
        (∀ v : Fin n → ℚ, v ≠ 0 → 0 < dot v (mulVec s.inverse_correlation v)) →
        input ≠ 0 →
        |target - dot (s.update input target).weight input|
          < |target - dot s.weight input|) := by
  intro h
  have hlt := h 1 ⟨1, fun _ => 0, fun _ _ => 1, fun _ => 0, 0⟩ (fun _ => 1) 0
    rfl (fun _ _ => rfl) unit_matrix_posdef one_fun_ne_zero
  rw [update_weight_def] at hlt
  norm_num [dot, mulVec, Fin.sum_univ_one] at hlt

/-- Witness for the amended C4 on the same state with target `1`, where the
pre-update prediction `0` differs from the target. -/
theorem error_reduction_witness :
    |1 - dot ((⟨1, fun _ => 0, fun _ _ => 1, fun _ => 0, 0⟩ : Rls 1).update
        (fun _ => 1) 1).weight (fun _ => 1)|
      < |1 - dot (⟨1, fun _ => 0, fun _ _ => 1, fun _ => 0, 0⟩ : Rls 1).weight
          (fun _ => 1)| :=
  error_reduction _ _ 1 rfl (fun _ _ => rfl) unit_matrix_posdef one_fun_ne_zero
    (by norm_num [dot, Fin.sum_univ_one])

/-- Observable outcome of calling `Rls::update` through its public
signature. `dimensionMismatch` is the fail-fast rejection the spec asks
for; it exists here only so that that expectation can be stated — the crate
defines no error type and never produces such a value. `linalgPanic` is a
panic raised by a shape assertion inside a linear-algebra routine. -/
inductive UpdateOutcome (n : ℕ) where
  | ok : Rls n → UpdateOutcome n
  | dimensionMismatch : UpdateOutcome n
  | linalgPanic : UpdateOutcome n

/-- `Rls::update` as invoked with an input slice of arbitrary length.
The source performs no length validation of its own: when
`input.length ≠ n`, the first `general_mat_vec_mul` call inside `update`
fails ndarray's documented shape assertion and the call panics inside the
linear-algebra routine, modelled as `linalgPanic`. -/
def Rls.updateAnyLen {n : ℕ} (s : Rls n) (input : List ℚ) (target : ℚ) :
    UpdateOutcome n :=
  if h : input.length = n then
    UpdateOutcome.ok (s.update (fun i => input.get ⟨i.1, by rw [h]; exact i.isLt⟩) target)
  else
    UpdateOutcome.linalgPanic

/-- Counterexample to claim C7: a length-1 filter fed a length-2 input
panics inside the linear-algebra call; it does not reject the call with a
`DimensionMismatch` error (the crate has no error type to return). -/
theorem mismatch_no_error_cex :
    (Rls.new 1 1 1).updateAnyLen [1, 2] 0 = UpdateOutcome.linalgPanic ∧
    (UpdateOutcome.linalgPanic : UpdateOutcome 1) ≠ UpdateOutcome.dimensionMismatch := by
  refine ⟨rfl, fun h => ?_⟩
  exact UpdateOutcome.noConfusion h

/-- Claim C7 as amended: every `update` call whose input length differs
from the configured length `n` panics inside the linear-algebra routine. -/
theorem mismatch_panics {n : ℕ} (s : Rls n) (input : List ℚ) (target : ℚ)
    (h : input.length ≠ n) :
    s.updateAnyLen input target = UpdateOutcome.linalgPanic := by
  unfold Rls.updateAnyLen
  rw [dif_neg h]

/-- Witness for the amended C7: a length-3 input against a length-1 filter. -/
theorem mismatch_panics_witness :
    (Rls.new 1 1 1).updateAnyLen [1, 2, 3] 0 = UpdateOutcome.linalgPanic :=
  mismatch_panics _ _ 0 (by simp)

/-- `update` never writes `inv_forgetting_factor`, so a `List.foldl` over
any observation sequence preserves it. -/
lemma foldl_update_forgetting {n : ℕ} (obs : List ((Fin n → ℚ) × ℚ)) (s : Rls n) :
    (obs.foldl (fun s ob => s.update ob.1 ob.2) s).inv_forgetting_factor
      = s.inv_forgetting_factor := by
  induction obs generalizing s with
  | nil => rfl
  | cons a l ih => exact (ih (s.update a.1 a.2)).trans rfl

/-- Claim C9: `inv_forgetting_factor` is fixed at construction — `update`
leaves it unchanged — and for `λ ∈ (0,1]` the constructed value `1/λ` is at
least `1` and remains so after every sequence of updates. -/
theorem inv_forgetting_factor_invariant {n : ℕ} (δ lam : ℚ) (w : Fin n → ℚ)
    (hl0 : 0 < lam) (hl1 : lam ≤ 1) (obs : List ((Fin n → ℚ) × ℚ)) :
    (∀ (s : Rls n) (input : Fin n → ℚ) (target : ℚ),
      (s.update input target).inv_forgetting_factor = s.inv_forgetting_factor) ∧
    1 ≤ (Rls.with_weight δ lam w).inv_forgetting_factor ∧
    1 ≤ (obs.foldl (fun s ob => s.update ob.1 ob.2)
          (Rls.with_weight δ lam w)).inv_forgetting_factor := by
  have h1 : 1 ≤ (Rls.with_weight δ lam w).inv_forgetting_factor := by
    show (1 : ℚ) ≤ 1 / lam
    rw [le_div_iff₀ hl0]
    linarith
  exact ⟨fun _ _ _ => rfl, h1, by rw [foldl_update_forgetting]; exact h1⟩

/-- Witness for C9 at `δ = 1`, `λ = 1`, the empty observation list. -/
theorem inv_forgetting_factor_invariant_witness :
    1 ≤ (Rls.with_weight (1 : ℚ) 1 (fun _ : Fin 1 => 0)).inv_forgetting_factor :=
  (inv_forgetting_factor_invariant 1 1 (fun _ => 0)
    (by norm_num) (by norm_num) []).2.1

/-- Witness for C10 on a concrete state with `λ⁻¹ = 2` and matrix entry 3. -/
theorem zero_input_scales_icm_witness :
    |(⟨2, fun _ => 0, fun _ _ => 3, fun _ => 0, 0⟩ : Rls 1).inverse_correlation 0 0|
      < |((⟨2, fun _ => 0, fun _ _ => 3, fun _ => 0, 0⟩ : Rls 1).update
          (fun _ => 0) 5).inverse_correlation 0 0| :=
  (zero_input_scales_icm _ 5).2.2.2
    (show (1:ℚ) < 2 by norm_num) 0 0 (show (3:ℚ) ≠ 0 by norm_num)

end Recless
